import Mathlib

/-!
A shallow embedding of `src/dashboard.py` (Market-Dashboard): the data
synchronization and transformation pipeline `download_data`, `preprocess`
and `normalize`.  Pandas frames are modelled as a date index, a column
list and row-major cells; a missing cell (pandas `NaN`) is `none`, prices
are exact rationals.  The remote provider `yf.download` is a parameter
(`Fetcher`): one call either raises, or returns the (possibly empty) Close
series of one ticker.
-/

namespace MarketDashboard

/-- Trading dates, modelled as ordinals. -/
abbrev Date := ℕ

/-- A pandas DataFrame with a date index: `dates` the index, `cols` the
column labels, `rows` the cells in row-major order (`none` = NaN). -/
structure Frame where
  dates : List Date
  cols  : List String
  rows  : List (List (Option ℚ))
  deriving Repr, DecidableEq

/-- Well-formed frame: one row per date, one cell per column in each row. -/
def Frame.WF (f : Frame) : Prop :=
  f.rows.length = f.dates.length ∧ ∀ r ∈ f.rows, r.length = f.cols.length

instance (f : Frame) : Decidable f.WF := by
  unfold Frame.WF; infer_instance

/-- The cell of row `i`, column `j` (`none` when out of range). -/
def Frame.entry (f : Frame) (i j : ℕ) : Option ℚ :=
  (f.rows.getD i []).getD j none

/-- One step of pandas column-wise forward fill: keep a present cell,
replace a missing cell by the carried last-known value of its column. -/
def ffillRow (carry row : List (Option ℚ)) : List (Option ℚ) :=
  List.zipWith (fun v c => v.orElse fun _ => c) row carry

/-- Pandas `DataFrame.ffill` over the rows, carrying each column's last
non-missing value downward. -/
def ffillRows : List (Option ℚ) → List (List (Option ℚ)) → List (List (Option ℚ))
  | _, [] => []
  | carry, r :: rs =>
    let r' := ffillRow carry r
    r' :: ffillRows r' rs

/-- The `data.ffill()` step (src/dashboard.py line 38). -/
def Frame.ffill (f : Frame) : Frame :=
  ⟨f.dates, f.cols, ffillRows (List.replicate f.cols.length none) f.rows⟩

/-- A row every cell of which is missing. -/
def rowAllMissing (r : List (Option ℚ)) : Bool :=
  r.all fun v => v.isNone

/-- Pandas `.dropna(how="all")`: drop the rows (and their dates) whose every cell
is missing (src/dashboard.py line 38). -/
def Frame.dropnaAll (f : Frame) : Frame :=
  let kept := (f.dates.zip f.rows).filter fun p => !rowAllMissing p.2
  ⟨kept.map Prod.fst, f.cols, kept.map Prod.snd⟩

/-- The function `preprocess(data) = data.ffill().dropna(how="all")`
(src/dashboard.py lines 37-38). -/
def preprocess (f : Frame) : Frame :=
  f.ffill.dropnaAll

/-- One row of `pct_change`: cell-wise `filled/prev - 1` when both the
forward-filled current and previous values are present, else NaN. -/
def pctRow (prev filled : List (Option ℚ)) : List (Option ℚ) :=
  List.zipWith
    (fun fv pv =>
      match fv, pv with
      | some a, some b => some (a / b - 1)
      | _, _ => none)
    filled prev

/-- Pandas `DataFrame.pct_change()` with its default pad fill: each column is
forward-filled, then divided by its own previous (filled) value. -/
def pctChangeRows : List (Option ℚ) → List (List (Option ℚ)) → List (List (Option ℚ))
  | _, [] => []
  | prev, r :: rs =>
    let filled := ffillRow prev r
    pctRow prev filled :: pctChangeRows filled rs

/-- The `prices.pct_change()` step (src/dashboard.py line 41). -/
def Frame.pctChange (f : Frame) : Frame :=
  ⟨f.dates, f.cols, pctChangeRows (List.replicate f.cols.length none) f.rows⟩

/-- The `.fillna(0)` step (src/dashboard.py line 41): every missing cell becomes 0. -/
def Frame.fillna0 (f : Frame) : Frame :=
  ⟨f.dates, f.cols, f.rows.map fun r => r.map fun v => some (v.getD 0)⟩

/-- The `1 + returns` step (src/dashboard.py line 42): cell-wise addition of 1. -/
def Frame.addOne (f : Frame) : Frame :=
  ⟨f.dates, f.cols, f.rows.map fun r => r.map fun v => v.map fun x => 1 + x⟩

/-- One cumulative-product accumulator step: a missing cell is skipped
(pandas `cumprod` skipna). -/
def cumprodCell (a : ℚ) (v : Option ℚ) : ℚ :=
  match v with
  | some x => a * x
  | none => a

/-- Pandas `DataFrame.cumprod()` over the rows, carrying one running product per
column; a missing cell stays missing and leaves the product unchanged. -/
def cumprodRows : List ℚ → List (List (Option ℚ)) → List (List (Option ℚ))
  | _, [] => []
  | acc, r :: rs =>
    let acc' := List.zipWith cumprodCell acc r
    (List.zipWith (fun a v => Option.map (fun _ => a) v) acc' r) :: cumprodRows acc' rs

/-- The `.cumprod()` step (src/dashboard.py line 42). -/
def Frame.cumprod (f : Frame) : Frame :=
  ⟨f.dates, f.cols, cumprodRows (List.replicate f.cols.length 1) f.rows⟩

/-- The function `normalize(prices)` (src/dashboard.py lines 40-43):
`returns = prices.pct_change().fillna(0)`;
`cum_returns = (1 + returns).cumprod()`. -/
def normalize (f : Frame) : Frame :=
  f.pctChange.fillna0.addOne.cumprod

/-- A ticker's fetched Close series: (date, price) bars. -/
abbrev Bars := List (Date × ℚ)

/-- The outcome of one `yf.download(t, ...)["Close"]` call: a provider
exception, or a (possibly empty) Close series. -/
inductive FetchOutcome where
  | raise : FetchOutcome
  | frame : Bars → FetchOutcome
  deriving Repr, DecidableEq

/-- The remote provider, a black box keyed by ticker. -/
abbrev Fetcher := String → FetchOutcome

/-- A fetch that `download_data` counts as success: no exception and a
non-empty series (src/dashboard.py lines 20-29). -/
def fetchOk (o : FetchOutcome) : Bool :=
  match o with
  | .raise => false
  | .frame bars => !bars.isEmpty

/-- The loop state of `download_data`: the named series collected so far,
the two ticker lists, and the trace of `yf.download` calls issued. -/
structure LoopState where
  all_data : List (String × Bars)
  valid_tickers : List String
  failed_tickers : List String
  fetched : List String
  deriving Repr, DecidableEq

/-- The `for t in tickers` loop of `download_data` (src/dashboard.py lines
19-29): every ticker is fetched; an exception or an empty result appends
to `failed_tickers`, a non-empty result to `all_data`/`valid_tickers`. -/
def downloadLoop (fetch : Fetcher) : List String → LoopState
  | [] => ⟨[], [], [], []⟩
  | t :: ts =>
    let rest := downloadLoop fetch ts
    match fetch t with
    | .raise =>
      ⟨rest.all_data, rest.valid_tickers, t :: rest.failed_tickers, t :: rest.fetched⟩
    | .frame bars =>
      if bars.isEmpty then
        ⟨rest.all_data, rest.valid_tickers, t :: rest.failed_tickers, t :: rest.fetched⟩
      else
        ⟨(t, bars) :: rest.all_data, t :: rest.valid_tickers, rest.failed_tickers,
          t :: rest.fetched⟩

/-- Insert a date into a sorted duplicate-free date list. -/
def insertDate (d : Date) : List Date → List Date
  | [] => [d]
  | x :: xs =>
    if d < x then d :: x :: xs
    else if d = x then x :: xs
    else x :: insertDate d xs

/-- The sorted union of the date indexes of the fetched series (the outer
join `pd.concat(all_data, axis=1)` aligns on). -/
def unionDates (ls : List Bars) : List Date :=
  ls.foldr (fun bars acc => bars.foldr (fun b a => insertDate b.1 a) acc) []

/-- The price a series holds at a date, if any. -/
def lookupBar (bars : Bars) (d : Date) : Option ℚ :=
  (bars.find? fun b => b.1 == d).map Prod.snd

/-- The `pd.concat(all_data, axis=1)` step (src/dashboard.py line 32): outer join
of the named series on their dates; one column per series, in order. -/
def concatAxis1 (series : List (String × Bars)) : Frame :=
  let ds := unionDates (series.map Prod.snd)
  ⟨ds, series.map Prod.fst, ds.map fun d => series.map fun s => lookupBar s.2 d⟩

/-- The empty `pd.DataFrame()` (src/dashboard.py line 35). -/
def emptyFrame : Frame := ⟨[], [], []⟩

/-- The function `download_data(tickers, ...)` (src/dashboard.py lines 14-35): run the
fetch loop; concatenate when anything succeeded, else return an empty
frame with an empty valid list. -/
def download_data (fetch : Fetcher) (tickers : List String) :
    Frame × List String × List String :=
  let st := downloadLoop fetch tickers
  if st.all_data.isEmpty then (emptyFrame, [], st.failed_tickers)
  else (concatAxis1 st.all_data, st.valid_tickers, st.failed_tickers)

/-- The `yf.download` calls one `download_data` call issues, in order. -/
def fetchCalls (fetch : Fetcher) (tickers : List String) : List String :=
  (downloadLoop fetch tickers).fetched

/-- The last present value of a list of optional cells, scanning left to
right (specification function for forward fill). -/
def lastSomeFrom (init : Option ℚ) (l : List (Option ℚ)) : Option ℚ :=
  l.foldl (fun acc v => v.orElse fun _ => acc) init

/-- Column `j` of a row-major cell matrix. -/
def colAt (rows : List (List (Option ℚ))) (j : ℕ) : List (Option ℚ) :=
  rows.map fun r => r.getD j none

/-- The most recent non-missing value of column `j` strictly before row
`i` (specification function, from the spec's forward-fill contract). -/
def mostRecentBefore (f : Frame) (j i : ℕ) : Option ℚ :=
  lastSomeFrom none ((colAt f.rows j).take i)

/-- A concrete deterministic provider for witnesses and counterexamples:
ticker A has a three-bar history, B one bar, E an empty result, anything
else raises. -/
def demoFetch : Fetcher := fun t =>
  if t = "A" then .frame [(0, 100), (1, 110), (2, 99)]
  else if t = "B" then .frame [(1, 5)]
  else if t = "E" then .frame []
  else .raise

/-- Single-column frame holding the spec's forward-fill example
`[1.0, missing, missing, 2.0]`. -/
def ffillExample : Frame :=
  ⟨[0, 1, 2, 3], ["S"], [[some 1], [none], [none], [some 2]]⟩

/-- Two-symbol frame whose symbol B is missing at the first date and
present afterwards; `preprocess` keeps it unchanged. -/
def leadingGap : Frame :=
  ⟨[0, 1], ["A", "B"], [[some 100, none], [some 110, some 5]]⟩

/-- Single-column frame holding the spec's normalization example prices
`[100, 110, 99]`. -/
def priceExample : Frame :=
  ⟨[0, 1, 2], ["A"], [[some 100], [some 110], [some 99]]⟩

/-- Two-symbol frame whose first date row is entirely missing: `preprocess`
must drop that row and keep the second. -/
def allMissingStart : Frame :=
  ⟨[0, 1], ["A", "B"], [[none, none], [some 1, none]]⟩

/-! ### The fetch loop, characterized -/

theorem downloadLoop_fetched (fetch : Fetcher) (ts : List String) :
    (downloadLoop fetch ts).fetched = ts := by
  induction ts with
  | nil => rfl
  | cons t ts ih =>
    cases h : fetch t with
    | raise => simp [downloadLoop, h, ih]
    | frame bars =>
      by_cases hb : bars.isEmpty <;> simp [downloadLoop, h, hb, ih]

theorem downloadLoop_valid (fetch : Fetcher) (ts : List String) :
    (downloadLoop fetch ts).valid_tickers = ts.filter fun t => fetchOk (fetch t) := by
  induction ts with
  | nil => rfl
  | cons t ts ih =>
    cases h : fetch t with
    | raise => simp [downloadLoop, h, ih, fetchOk, List.filter_cons]
    | frame bars =>
      by_cases hb : bars.isEmpty <;>
        simp [downloadLoop, h, hb, ih, fetchOk, List.filter_cons]

theorem downloadLoop_failed (fetch : Fetcher) (ts : List String) :
    (downloadLoop fetch ts).failed_tickers =
      ts.filter fun t => !fetchOk (fetch t) := by
  induction ts with
  | nil => rfl
  | cons t ts ih =>
    cases h : fetch t with
    | raise => simp [downloadLoop, h, ih, fetchOk, List.filter_cons]
    | frame bars =>
      by_cases hb : bars.isEmpty <;>
        simp [downloadLoop, h, hb, ih, fetchOk, List.filter_cons]

theorem downloadLoop_all_data_fst (fetch : Fetcher) (ts : List String) :
    (downloadLoop fetch ts).all_data.map Prod.fst =
      (downloadLoop fetch ts).valid_tickers := by
  induction ts with
  | nil => rfl
  | cons t ts ih =>
    cases h : fetch t with
    | raise => simp [downloadLoop, h, ih]
    | frame bars =>
      by_cases hb : bars.isEmpty <;> simp [downloadLoop, h, hb, ih]

theorem downloadLoop_valid_nil (fetch : Fetcher) (ts : List String)
    (h : (downloadLoop fetch ts).all_data = []) :
    (downloadLoop fetch ts).valid_tickers = [] := by
  have := downloadLoop_all_data_fst fetch ts
  rw [h] at this
  exact this.symm

theorem download_data_valid (fetch : Fetcher) (ts : List String) :
    (download_data fetch ts).2.1 = (downloadLoop fetch ts).valid_tickers := by
  unfold download_data
  by_cases h : (downloadLoop fetch ts).all_data.isEmpty
  · rw [List.isEmpty_iff] at h
    simp [h, List.isEmpty_iff, downloadLoop_valid_nil fetch ts h]
  · simp [h]

theorem download_data_failed (fetch : Fetcher) (ts : List String) :
    (download_data fetch ts).2.2 = (downloadLoop fetch ts).failed_tickers := by
  unfold download_data
  by_cases h : (downloadLoop fetch ts).all_data.isEmpty <;> simp [h]

theorem download_data_cols (fetch : Fetcher) (ts : List String) :
    (download_data fetch ts).1.cols = (downloadLoop fetch ts).valid_tickers := by
  unfold download_data
  by_cases h : (downloadLoop fetch ts).all_data.isEmpty
  · rw [List.isEmpty_iff] at h
    simp [h, List.isEmpty_iff, downloadLoop_valid_nil fetch ts h, emptyFrame]
  · simpa [h, concatAxis1] using downloadLoop_all_data_fst fetch ts

/-! ### Forward fill, characterized -/

theorem lastSomeFrom_append (init : Option ℚ) (l1 l2 : List (Option ℚ)) :
    lastSomeFrom init (l1 ++ l2) = lastSomeFrom (lastSomeFrom init l1) l2 := by
  simp [lastSomeFrom, List.foldl_append]

theorem ffillRow_length (carry r : List (Option ℚ)) (h : r.length = carry.length) :
    (ffillRow carry r).length = carry.length := by
  simp [ffillRow, h]

theorem ffillRow_getD (carry r : List (Option ℚ)) (j : ℕ)
    (hr : r.length = carry.length) (hj : j < carry.length) :
    (ffillRow carry r).getD j none =
      ((r.getD j none).orElse fun _ => carry.getD j none) := by
  have hj' : j < r.length := hr ▸ hj
  have hz : j < (ffillRow carry r).length := by
    rw [ffillRow_length carry r hr]; exact hj
  rw [List.getD_eq_getElem _ _ hz, List.getD_eq_getElem _ _ hj',
    List.getD_eq_getElem _ _ hj]
  simp [ffillRow]

theorem ffillRows_length (carry : List (Option ℚ)) (rows : List (List (Option ℚ))) :
    (ffillRows carry rows).length = rows.length := by
  induction rows generalizing carry with
  | nil => rfl
  | cons r rs ih => simp [ffillRows, ih]

theorem ffillRows_row_length (carry : List (Option ℚ))
    (rows : List (List (Option ℚ))) (h : ∀ r ∈ rows, r.length = carry.length) :
    ∀ r ∈ ffillRows carry rows, r.length = carry.length := by
  induction rows generalizing carry with
  | nil => intro r hr; cases hr
  | cons r rs ih =>
    intro r' hr'
    have hr : r.length = carry.length := h r (List.mem_cons_self r rs)
    have hcl : (ffillRow carry r).length = carry.length := ffillRow_length carry r hr
    rcases List.mem_cons.1 hr' with h1 | h1
    · rw [h1]; exact hcl
    · have := ih (ffillRow carry r)
        (fun x hx => (h x (List.mem_cons_of_mem r hx)).trans hcl.symm) r' h1
      exact this.trans hcl

theorem ffillRows_getD (carry : List (Option ℚ)) (rows : List (List (Option ℚ)))
    (hlen : ∀ r ∈ rows, r.length = carry.length) (i j : ℕ)
    (hi : i < rows.length) (hj : j < carry.length) :
    ((ffillRows carry rows).getD i []).getD j none =
      lastSomeFrom (carry.getD j none) ((colAt rows j).take (i + 1)) := by
  induction rows generalizing carry i with
  | nil => cases hi
  | cons r rs ih =>
    have hr : r.length = carry.length := hlen r (List.mem_cons_self r rs)
    have hcl : (ffillRow carry r).length = carry.length := ffillRow_length carry r hr
    cases i with
    | zero =>
      simp only [ffillRows, List.getD_cons_zero, colAt, List.map_cons,
        List.take_succ_cons, List.take_zero, lastSomeFrom, List.foldl_cons,
        List.foldl_nil]
      exact ffillRow_getD carry r j hr hj
    | succ i =>
      have hi' : i < rs.length := Nat.lt_of_succ_lt_succ hi
      have hlen' : ∀ x ∈ rs, x.length = (ffillRow carry r).length :=
        fun x hx => (hlen x (List.mem_cons_of_mem r hx)).trans hcl.symm
      have hj' : j < (ffillRow carry r).length := hcl ▸ hj
      have := ih (ffillRow carry r) hlen' i hi' hj'
      simp only [ffillRows, List.getD_cons_succ, this, colAt, List.map_cons,
        List.take_succ_cons]
      rw [ffillRow_getD carry r j hr hj]
      rfl

theorem ffill_entry (f : Frame) (hwf : f.WF) (i j : ℕ)
    (hi : i < f.rows.length) (hj : j < f.cols.length) :
    f.ffill.entry i j = lastSomeFrom none ((colAt f.rows j).take (i + 1)) := by
  have hcar : (List.replicate f.cols.length (none : Option ℚ)).length =
      f.cols.length := List.length_replicate _ _
  have hlen : ∀ r ∈ f.rows,
      r.length = (List.replicate f.cols.length (none : Option ℚ)).length :=
    fun r hr => (hwf.2 r hr).trans hcar.symm
  have hj' : j < (List.replicate f.cols.length (none : Option ℚ)).length := by
    rw [hcar]; exact hj
  have key := ffillRows_getD _ f.rows hlen i j hi hj'
  have hrep : (List.replicate f.cols.length (none : Option ℚ)).getD j none =
      none := by
    rw [List.getD_eq_getElem _ _ hj']
    simp
  rw [hrep] at key
  exact key

theorem colAt_take_succ (rows : List (List (Option ℚ))) (j i : ℕ)
    (hi : i < rows.length) :
    (colAt rows j).take (i + 1) =
      (colAt rows j).take i ++ [(rows.getD i []).getD j none] := by
  have h1 : i < (colAt rows j).length := by simpa [colAt] using hi
  rw [List.take_succ, List.getElem?_eq_getElem h1, List.getD_eq_getElem _ _ hi]
  simp [colAt]

/-! ### Normalization, characterized -/

theorem pctRow_length (prev filled : List (Option ℚ)) :
    (pctRow prev filled).length = min filled.length prev.length := by
  simp [pctRow]

theorem pctRow_getD (prev filled : List (Option ℚ)) (j : ℕ)
    (h1 : j < filled.length) (h2 : j < prev.length) :
    (pctRow prev filled).getD j none =
      match filled.getD j none, prev.getD j none with
      | some a, some b => some (a / b - 1)
      | _, _ => none := by
  have hz : j < (pctRow prev filled).length := by
    rw [pctRow_length]; exact lt_min h1 h2
  rw [List.getD_eq_getElem _ _ hz, List.getD_eq_getElem _ _ h1,
    List.getD_eq_getElem _ _ h2]
  simp [pctRow]

theorem pctChangeRows_length (prev : List (Option ℚ))
    (rows : List (List (Option ℚ))) :
    (pctChangeRows prev rows).length = rows.length := by
  induction rows generalizing prev with
  | nil => rfl
  | cons r rs ih => simp [pctChangeRows, ih]

theorem pctChangeRows_row_length (prev : List (Option ℚ))
    (rows : List (List (Option ℚ))) (h : ∀ r ∈ rows, r.length = prev.length) :
    ∀ r ∈ pctChangeRows prev rows, r.length = prev.length := by
  induction rows generalizing prev with
  | nil => intro r hr; cases hr
  | cons r rs ih =>
    intro r' hr'
    have hr : r.length = prev.length := h r (List.mem_cons_self r rs)
    have hfl : (ffillRow prev r).length = prev.length := ffillRow_length prev r hr
    rcases List.mem_cons.1 hr' with h1 | h1
    · rw [h1, pctRow_length, hfl]
      simp
    · have := ih (ffillRow prev r)
        (fun x hx => (h x (List.mem_cons_of_mem r hx)).trans hfl.symm) r' h1
      exact this.trans hfl

theorem pctChangeRows_getD_zero (prev : List (Option ℚ))
    (rows : List (List (Option ℚ))) :
    (pctChangeRows prev rows).getD 0 [] =
      pctRow prev ((ffillRows prev rows).getD 0 []) := by
  cases rows with
  | nil => simp [pctChangeRows, ffillRows, pctRow]
  | cons r rs => simp [pctChangeRows, ffillRows]

theorem pctChangeRows_getD_succ (prev : List (Option ℚ))
    (rows : List (List (Option ℚ))) (i : ℕ) :
    (pctChangeRows prev rows).getD (i + 1) [] =
      pctRow ((ffillRows prev rows).getD i [])
        ((ffillRows prev rows).getD (i + 1) []) := by
  induction rows generalizing prev i with
  | nil => simp [pctChangeRows, ffillRows, pctRow]
  | cons r rs ih =>
    cases i with
    | zero =>
      simp only [pctChangeRows, ffillRows, List.getD_cons_succ,
        List.getD_cons_zero]
      exact pctChangeRows_getD_zero (ffillRow prev r) rs
    | succ i =>
      simp only [pctChangeRows, ffillRows, List.getD_cons_succ]
      exact ih (ffillRow prev r) i

theorem cumprodRows_getD_zero (acc : List ℚ) (rows : List (List (Option ℚ)))
    (hlen : ∀ r ∈ rows, r.length = acc.length) (j : ℕ) (hj : j < acc.length)
    (h0 : 0 < rows.length) (v : ℚ)
    (hv : (rows.getD 0 []).getD j none = some v) :
    ((cumprodRows acc rows).getD 0 []).getD j none =
      some (acc.getD j 0 * v) := by
  cases rows with
  | nil => cases h0
  | cons r rs =>
    have hr : r.length = acc.length := hlen r (List.mem_cons_self r rs)
    have hj2 : j < r.length := by rw [hr]; exact hj
    have hz : j < (List.zipWith (fun a v => Option.map (fun _ => a) v)
        (List.zipWith cumprodCell acc r) r).length := by
      simp only [List.length_zipWith, hr, min_self]
      exact hj
    simp only [List.getD_cons_zero] at hv
    simp only [cumprodRows, List.getD_cons_zero]
    rw [List.getD_eq_getElem _ _ hz, List.getD_eq_getElem _ _ hj]
    rw [List.getD_eq_getElem _ _ hj2] at hv
    simp [List.getElem_zipWith, hv, cumprodCell]

theorem cumprodRows_getD_succ (acc : List ℚ) (rows : List (List (Option ℚ)))
    (hlen : ∀ r ∈ rows, r.length = acc.length)
    (hsome : ∀ r ∈ rows, ∀ v ∈ r, v.isSome = true)
    (i j : ℕ) (hi : i + 1 < rows.length) (hj : j < acc.length) (v : ℚ)
    (hv : (rows.getD (i + 1) []).getD j none = some v) :
    ((cumprodRows acc rows).getD (i + 1) []).getD j none =
      Option.map (fun x => x * v)
        (((cumprodRows acc rows).getD i []).getD j none) := by
  induction rows generalizing acc i with
  | nil => cases hi
  | cons r rs ih =>
    have hr : r.length = acc.length := hlen r (List.mem_cons_self r rs)
    have hacc : (List.zipWith cumprodCell acc r).length = acc.length := by
      simp only [List.length_zipWith, hr, min_self]
    have hlen' : ∀ x ∈ rs, x.length = (List.zipWith cumprodCell acc r).length :=
      fun x hx => (hlen x (List.mem_cons_of_mem r hx)).trans hacc.symm
    have hsome' : ∀ x ∈ rs, ∀ w ∈ x, w.isSome = true :=
      fun x hx => hsome x (List.mem_cons_of_mem r hx)
    have hj2 : j < r.length := by rw [hr]; exact hj
    obtain ⟨x, hx⟩ := Option.isSome_iff_exists.1
      (hsome r (List.mem_cons_self r rs) _ (List.getElem_mem hj2))
    have hj' : j < (List.zipWith cumprodCell acc r).length := by
      rw [hacc]; exact hj
    cases i with
    | zero =>
      cases rs with
      | nil => simp at hi
      | cons r1 rs' =>
        have hv' : ((r1 :: rs').getD 0 []).getD j none = some v := by
          simpa using hv
        have L := cumprodRows_getD_zero (List.zipWith cumprodCell acc r)
          (r1 :: rs') hlen' j hj' (Nat.succ_pos _) v hv'
        have hz : j < (List.zipWith (fun a v => Option.map (fun _ => a) v)
            (List.zipWith cumprodCell acc r) r).length := by
          simp only [List.length_zipWith, hr, min_self]
          exact hj
        simp only [cumprodRows, List.getD_cons_succ, List.getD_cons_zero] at L ⊢
        rw [L, List.getD_eq_getElem _ _ hz, List.getD_eq_getElem _ _ hj']
        simp [List.getElem_zipWith, hx]
    | succ i =>
      have hi' : i + 1 < rs.length := Nat.lt_of_succ_lt_succ hi
      have hv2 : (rs.getD (i + 1) []).getD j none = some v := by
        simpa using hv
      have hj' : j < (List.zipWith cumprodCell acc r).length := by
        rw [hacc]; exact hj
      have := ih (List.zipWith cumprodCell acc r) hlen' hsome' i hi' hj' hv2
      simpa [cumprodRows, List.getD_cons_succ] using this

theorem ffill_rows_length (f : Frame) :
    f.ffill.rows.length = f.rows.length := by
  simpa [Frame.ffill] using
    ffillRows_length (List.replicate f.cols.length none) f.rows

theorem ffill_row_len (f : Frame) (hwf : f.WF) (i : ℕ)
    (hi : i < f.rows.length) :
    (f.ffill.rows.getD i []).length = f.cols.length := by
  have hi' : i < f.ffill.rows.length := by rw [ffill_rows_length]; exact hi
  rw [List.getD_eq_getElem _ _ hi']
  have hmem := List.getElem_mem hi'
  have := ffillRows_row_length (List.replicate f.cols.length none) f.rows
    (fun r hr => by simp [hwf.2 r hr]) _ hmem
  simpa using this

theorem pct_rows_length (f : Frame) :
    f.pctChange.rows.length = f.rows.length := by
  simpa [Frame.pctChange] using
    pctChangeRows_length (List.replicate f.cols.length none) f.rows

theorem pct_row_len (f : Frame) (hwf : f.WF) (i : ℕ)
    (hi : i < f.rows.length) :
    (f.pctChange.rows.getD i []).length = f.cols.length := by
  have hi' : i < f.pctChange.rows.length := by rw [pct_rows_length]; exact hi
  rw [List.getD_eq_getElem _ _ hi']
  have hmem := List.getElem_mem hi'
  have := pctChangeRows_row_length (List.replicate f.cols.length none) f.rows
    (fun r hr => by simp [hwf.2 r hr]) _ hmem
  simpa using this

theorem pct_entry_zero (f : Frame) (hwf : f.WF) (j : ℕ)
    (h0 : 0 < f.rows.length) (hj : j < f.cols.length) :
    (f.pctChange.rows.getD 0 []).getD j none = none := by
  have hz := pctChangeRows_getD_zero (List.replicate f.cols.length none) f.rows
  have h1 : j < (f.ffill.rows.getD 0 []).length := by
    rw [ffill_row_len f hwf 0 h0]; exact hj
  have h2 : j < (List.replicate f.cols.length (none : Option ℚ)).length := by
    simpa using hj
  calc (f.pctChange.rows.getD 0 []).getD j none
      = (pctRow (List.replicate f.cols.length none)
          ((ffillRows (List.replicate f.cols.length none)
            f.rows).getD 0 [])).getD j none := by rw [← hz]; rfl
    _ = none := by
        show (pctRow (List.replicate f.cols.length none)
          (f.ffill.rows.getD 0 [])).getD j none = none
        rw [pctRow_getD _ _ j h1 h2]
        rw [List.getD_eq_getElem _ _ h2]
        simp only [List.getElem_replicate]
        cases (f.ffill.rows.getD 0 []).getD j none <;> rfl

theorem pct_entry_succ (f : Frame) (hwf : f.WF) (i j : ℕ)
    (hi : i + 1 < f.rows.length) (hj : j < f.cols.length) :
    (f.pctChange.rows.getD (i + 1) []).getD j none =
      match f.ffill.entry (i + 1) j, f.ffill.entry i j with
      | some a, some b => some (a / b - 1)
      | _, _ => none := by
  have hz := pctChangeRows_getD_succ (List.replicate f.cols.length none) f.rows i
  have h1 : j < (f.ffill.rows.getD (i + 1) []).length := by
    rw [ffill_row_len f hwf (i + 1) hi]; exact hj
  have h2 : j < (f.ffill.rows.getD i []).length := by
    rw [ffill_row_len f hwf i (Nat.lt_of_succ_lt hi)]; exact hj
  calc (f.pctChange.rows.getD (i + 1) []).getD j none
      = (pctRow ((ffillRows (List.replicate f.cols.length none) f.rows).getD i [])
          ((ffillRows (List.replicate f.cols.length none)
            f.rows).getD (i + 1) [])).getD j none := by rw [← hz]; rfl
    _ = _ := by
        show (pctRow (f.ffill.rows.getD i [])
          (f.ffill.rows.getD (i + 1) [])).getD j none = _
        rw [pctRow_getD _ _ j h1 h2]
        rfl

theorem returns_rows_some (f : Frame) :
    ∀ r ∈ f.pctChange.fillna0.addOne.rows, ∀ v ∈ r, v.isSome = true := by
  intro r hr v hv
  simp only [Frame.fillna0, Frame.addOne, List.mem_map] at hr
  obtain ⟨r1, ⟨r0, hr0, h1⟩, h2⟩ := hr
  subst h1 h2
  simp only [List.mem_map] at hv
  obtain ⟨u1, ⟨u0, hu0, h3⟩, h4⟩ := hv
  subst h3 h4
  rfl

theorem returns_rows_len (f : Frame) (hwf : f.WF) :
    (f.pctChange.fillna0.addOne.rows).length = f.rows.length ∧
    ∀ r ∈ f.pctChange.fillna0.addOne.rows, r.length = f.cols.length := by
  constructor
  · simp only [Frame.fillna0, Frame.addOne, List.length_map]
    exact pct_rows_length f
  · intro r hr
    simp only [Frame.fillna0, Frame.addOne, List.mem_map] at hr
    obtain ⟨r1, ⟨r0, hr0, h1⟩, h2⟩ := hr
    subst h1 h2
    simp only [List.length_map]
    exact pctChangeRows_row_length (List.replicate f.cols.length none) f.rows
      (fun x hx => by simp [hwf.2 x hx]) r0 hr0 |>.trans (by simp)

theorem returns_cell (f : Frame) (hwf : f.WF) (i j : ℕ)
    (hi : i < f.rows.length) (hj : j < f.cols.length) :
    ((f.pctChange.fillna0.addOne.rows).getD i []).getD j none =
      some (1 + ((f.pctChange.rows.getD i []).getD j none).getD 0) := by
  have hi' : i < f.pctChange.rows.length := by rw [pct_rows_length]; exact hi
  have hrl : (f.pctChange.rows.getD i []).length = f.cols.length :=
    pct_row_len f hwf i hi
  have hj' : j < (f.pctChange.rows.getD i []).length := by rw [hrl]; exact hj
  have hi2 : i < (f.pctChange.fillna0.addOne.rows).length := by
    rw [(returns_rows_len f hwf).1]; exact hi
  rw [List.getD_eq_getElem _ _ hi2, List.getD_eq_getElem _ _ hi'] at *
  simp only [Frame.fillna0, Frame.addOne, List.getElem_map]
  have hj2 : j < ((f.pctChange.rows[i].map fun v =>
      (some (v.getD 0) : Option ℚ)).map fun v => v.map fun x => 1 + x).length := by
    simpa using hj'
  rw [List.getD_eq_getElem _ _ hj2, List.getD_eq_getElem _ _ hj']
  simp

theorem ffill_entry_of_present (f : Frame) (hwf : f.WF) (i j : ℕ)
    (hi : i < f.rows.length) (hj : j < f.cols.length) (x : ℚ)
    (hx : f.entry i j = some x) :
    f.ffill.entry i j = some x := by
  have key := ffill_entry f hwf i j hi hj
  rw [colAt_take_succ f.rows j i hi, lastSomeFrom_append] at key
  unfold Frame.entry at hx
  rw [key, hx]
  rfl

theorem ffill_entry_carry (f : Frame) (hwf : f.WF) (i j : ℕ)
    (hi : i + 1 < f.rows.length) (hj : j < f.cols.length)
    (hn : f.entry (i + 1) j = none) :
    f.ffill.entry (i + 1) j = f.ffill.entry i j := by
  have key := ffill_entry f hwf (i + 1) j hi hj
  rw [colAt_take_succ f.rows j (i + 1) hi, lastSomeFrom_append] at key
  unfold Frame.entry at hn
  rw [key, hn]
  exact (ffill_entry f hwf i j (Nat.lt_of_succ_lt hi) hj).symm

theorem normalize_entry_zero (f : Frame) (hwf : f.WF) (j : ℕ)
    (h0 : 0 < f.rows.length) (hj : j < f.cols.length) :
    (normalize f).entry 0 j = some 1 := by
  have hret := returns_cell f hwf 0 j h0 hj
  rw [pct_entry_zero f hwf j h0 hj] at hret
  simp only [Option.getD_none, add_zero] at hret
  have hlen : ∀ r ∈ f.pctChange.fillna0.addOne.rows,
      r.length = (List.replicate f.cols.length (1 : ℚ)).length := by
    intro r hr
    simpa using (returns_rows_len f hwf).2 r hr
  have hj' : j < (List.replicate f.cols.length (1 : ℚ)).length := by
    simpa using hj
  have h0' : 0 < (f.pctChange.fillna0.addOne.rows).length := by
    rw [(returns_rows_len f hwf).1]; exact h0
  have key := cumprodRows_getD_zero (List.replicate f.cols.length 1)
    (f.pctChange.fillna0.addOne.rows) hlen j hj' h0' 1 hret
  rw [List.getD_eq_getElem _ _ hj'] at key
  simp only [List.getElem_replicate, one_mul] at key
  exact key

theorem normalize_entry_succ (f : Frame) (hwf : f.WF) (i j : ℕ)
    (hi : i + 1 < f.rows.length) (hj : j < f.cols.length) :
    (normalize f).entry (i + 1) j =
      Option.map
        (fun x => x * (1 + ((f.pctChange.rows.getD (i + 1) []).getD j none).getD 0))
        ((normalize f).entry i j) := by
  have hret := returns_cell f hwf (i + 1) j hi hj
  have hlen : ∀ r ∈ f.pctChange.fillna0.addOne.rows,
      r.length = (List.replicate f.cols.length (1 : ℚ)).length := by
    intro r hr
    simpa using (returns_rows_len f hwf).2 r hr
  have hj' : j < (List.replicate f.cols.length (1 : ℚ)).length := by
    simpa using hj
  have hi' : i + 1 < (f.pctChange.fillna0.addOne.rows).length := by
    rw [(returns_rows_len f hwf).1]; exact hi
  exact cumprodRows_getD_succ (List.replicate f.cols.length 1)
    (f.pctChange.fillna0.addOne.rows) hlen (returns_rows_some f) i j hi' hj'
    _ hret

theorem normalize_entry_isSome (f : Frame) (hwf : f.WF) (i j : ℕ)
    (hi : i < f.rows.length) (hj : j < f.cols.length) :
    ((normalize f).entry i j).isSome = true := by
  induction i with
  | zero => rw [normalize_entry_zero f hwf j hi hj]; rfl
  | succ i ih =>
    rw [normalize_entry_succ f hwf i j hi hj]
    have h2 := ih (Nat.lt_of_succ_lt hi)
    cases hcase : (normalize f).entry i j with
    | none => rw [hcase] at h2; cases h2
    | some x => rfl

/-! ### Claim theorems about download_data -/

/-- Claim C2, amended: `download_data` takes no existing series and keeps no
cache, so every call — a repeated identical call included — issues exactly
one `yf.download` call per requested symbol, in request order; no call ever
issues zero fetches for a non-empty request. -/
theorem sync_always_fetches (fetch : Fetcher) (ts : List String) :
    fetchCalls fetch ts = ts ∧ (ts ≠ [] → fetchCalls fetch ts ≠ []) :=
  ⟨downloadLoop_fetched fetch ts,
   fun hne h0 => hne ((downloadLoop_fetched fetch ts).symm.trans h0)⟩

/-- Claim C2, counterexample: a repeated call with the same as-of data still
issues a fetch call for ticker A — not zero fetch calls as the claim states. -/
theorem sync_always_fetches_cex :
    fetchCalls demoFetch ["A"] = ["A"] ∧ fetchCalls demoFetch ["A"] ≠ [] := by
  decide

/-- Claim C3, amended: for every duplicate-free requested symbol sequence,
`valid_tickers` and `failed_tickers` are duplicate-free, disjoint, together
cover exactly the requested symbols, and each preserves request order. -/
theorem sync_partition (fetch : Fetcher) (ts : List String) (hnd : ts.Nodup) :
    ((download_data fetch ts).2.1).Nodup ∧
    ((download_data fetch ts).2.2).Nodup ∧
    (∀ t, ¬(t ∈ (download_data fetch ts).2.1 ∧ t ∈ (download_data fetch ts).2.2)) ∧
    (∀ t, t ∈ ts ↔
      t ∈ (download_data fetch ts).2.1 ∨ t ∈ (download_data fetch ts).2.2) ∧
    ((download_data fetch ts).2.1).Sublist ts ∧
    ((download_data fetch ts).2.2).Sublist ts := by
  rw [download_data_valid, download_data_failed, downloadLoop_valid,
    downloadLoop_failed]
  refine ⟨hnd.filter _, hnd.filter _, ?_, ?_, List.filter_sublist _,
    List.filter_sublist _⟩
  · rintro t ⟨h1, h2⟩
    have e1 := (List.mem_filter.1 h1).2
    have e2 := (List.mem_filter.1 h2).2
    simp only [Bool.not_eq_true'] at e2
    rw [e2] at e1
    exact Bool.false_ne_true e1
  · intro t
    constructor
    · intro ht
      by_cases h : fetchOk (fetch t) = true
      · exact Or.inl (List.mem_filter.2 ⟨ht, h⟩)
      · exact Or.inr (List.mem_filter.2 ⟨ht, by simp [h]⟩)
    · rintro (h | h) <;> exact (List.mem_filter.1 h).1

/-- Claim C3, counterexample: requesting the same symbol twice duplicates it
in `valid_tickers`, so the returned lists are not duplicate-free for every
requested symbol sequence. -/
theorem sync_partition_cex :
    ¬ ((download_data demoFetch ["A", "A"]).2.1).Nodup := by decide

/-- Claim C3, witness at the concrete request `["A", "E"]`. -/
theorem sync_partition_witness :
    ((download_data demoFetch ["A", "E"]).2.1).Nodup ∧
    ((download_data demoFetch ["A", "E"]).2.2).Nodup ∧
    ((download_data demoFetch ["A", "E"]).2.1).Sublist ["A", "E"] :=
  ⟨(sync_partition demoFetch ["A", "E"] (by decide)).1,
   (sync_partition demoFetch ["A", "E"] (by decide)).2.1,
   (sync_partition demoFetch ["A", "E"] (by decide)).2.2.2.2.1⟩

/-- Claim C4: every requested symbol is fetched, in request order, no matter
which earlier symbols failed, and a symbol whose fetch raises or comes back
empty is recorded in `failed_tickers` (the loop never re-raises). -/
theorem fetch_failure_isolated (fetch : Fetcher) (ts : List String) :
    fetchCalls fetch ts = ts ∧
    ∀ t ∈ ts, fetchOk (fetch t) = false → t ∈ (download_data fetch ts).2.2 := by
  refine ⟨downloadLoop_fetched fetch ts, ?_⟩
  intro t ht hf
  rw [download_data_failed, downloadLoop_failed]
  exact List.mem_filter.2 ⟨ht, by simp [hf]⟩

/-- Claim C8: an empty requested symbol set yields an empty frame, empty
valid and failed lists, and no fetch call, without raising. -/
theorem sync_empty_request (fetch : Fetcher) :
    download_data fetch [] = (emptyFrame, [], []) ∧ fetchCalls fetch [] = [] :=
  ⟨rfl, rfl⟩

/-- Claim C5: forward fill in `preprocess` keeps a present cell unchanged
and replaces a missing cell by the most recent earlier non-missing value of
its column — staying missing when there is none; the spec's example column
`[1, missing, missing, 2]` preprocesses to `[1, 1, 1, 2]`. -/
theorem preprocess_ffill_spec (f : Frame) (hwf : f.WF) (i j : ℕ)
    (hi : i < f.rows.length) (hj : j < f.cols.length) :
    ((f.entry i j).isSome = true → f.ffill.entry i j = f.entry i j) ∧
    (f.entry i j = none → f.ffill.entry i j = mostRecentBefore f j i) ∧
    preprocess ffillExample =
      ⟨[0, 1, 2, 3], ["S"], [[some 1], [some 1], [some 1], [some 2]]⟩ := by
  have key := ffill_entry f hwf i j hi hj
  rw [colAt_take_succ f.rows j i hi, lastSomeFrom_append] at key
  refine ⟨?_, ?_, by decide⟩
  · intro hs
    obtain ⟨x, hx⟩ := Option.isSome_iff_exists.1 hs
    unfold Frame.entry at hx
    rw [key]
    unfold Frame.entry
    rw [hx]
    rfl
  · intro hn
    unfold Frame.entry at hn
    rw [key, hn]
    rfl

/-- Claim C5, witness at the missing middle cell of the example column. -/
theorem preprocess_ffill_spec_witness :
    ffillExample.ffill.entry 1 0 = mostRecentBefore ffillExample 0 1 ∧
    preprocess ffillExample =
      ⟨[0, 1, 2, 3], ["S"], [[some 1], [some 1], [some 1], [some 2]]⟩ :=
  ⟨(preprocess_ffill_spec ffillExample (by decide) 1 0 (by decide)
      (by decide)).2.1 (by decide),
   (preprocess_ffill_spec ffillExample (by decide) 1 0 (by decide)
      (by decide)).2.2⟩

/-- Row elimination of `.dropna(how="all")`: the kept dates are the dates
whose row has a present cell, in their original order; columns unchanged. -/
theorem dropnaAll_spec (g : Frame) (hg : g.rows.length = g.dates.length)
    (hd : g.dates.Nodup) :
    g.dropnaAll.cols = g.cols ∧
    (g.dropnaAll.dates).Sublist g.dates ∧
    ∀ i, i < g.dates.length →
      (g.dates.getD i 0 ∈ g.dropnaAll.dates ↔
        rowAllMissing (g.rows.getD i []) = false) := by
  have hzfst : (g.dates.zip g.rows).map Prod.fst = g.dates :=
    List.map_fst_zip _ _ (le_of_eq hg.symm)
  refine ⟨rfl, ?_, ?_⟩
  · have sub : ((g.dates.zip g.rows).filter
        fun p => !rowAllMissing p.2).Sublist (g.dates.zip g.rows) :=
      List.filter_sublist _
    have h2 := sub.map Prod.fst
    rw [hzfst] at h2
    exact h2
  · intro i hi
    have hi2 : i < g.rows.length := by rw [hg]; exact hi
    have hid : i < (g.dates.zip g.rows).length := by
      rw [List.length_zip]
      exact lt_min hi hi2
    simp only [Frame.dropnaAll]
    constructor
    · intro hmem
      obtain ⟨p, hp, hfst⟩ := List.mem_map.1 hmem
      obtain ⟨hpz, hpred⟩ := List.mem_filter.1 hp
      obtain ⟨k, hk, hgk⟩ := List.mem_iff_getElem.1 hpz
      have hk1 : k < g.dates.length := by
        rw [List.length_zip] at hk
        exact lt_of_lt_of_le hk (min_le_left _ _)
      have hk2 : k < g.rows.length := by rw [hg]; exact hk1
      rw [List.getElem_zip] at hgk
      have hdi : g.dates[k] = g.dates[i] := by
        have h1 : p.1 = g.dates[k] := by rw [← hgk]
        rw [← h1, hfst, List.getD_eq_getElem _ _ hi]
      have hki : k = i := (List.Nodup.getElem_inj_iff hd).1 hdi
      have hsnd : p.2 = g.rows[i] := by
        subst hki
        rw [← hgk]
      rw [List.getD_eq_getElem _ _ hi2, ← hsnd]
      simpa using hpred
    · intro hfalse
      have hzi : (g.dates.zip g.rows)[i] = (g.dates[i], g.rows[i]) :=
        List.getElem_zip
      have hpz : (g.dates[i], g.rows[i]) ∈ g.dates.zip g.rows := by
        rw [← hzi]
        exact List.getElem_mem hid
      have hkept : (g.dates[i], g.rows[i]) ∈
          (g.dates.zip g.rows).filter fun p => !rowAllMissing p.2 :=
        List.mem_filter.2 ⟨hpz, by
          rw [List.getD_eq_getElem _ _ hi2] at hfalse
          simp [hfalse]⟩
      rw [List.getD_eq_getElem _ _ hi]
      exact List.mem_map.2 ⟨_, hkept, rfl⟩

/-- Claim C6: `preprocess` drops exactly the date rows that are entirely
missing after forward fill, keeps every row with at least one resolved
cell, preserves date order, and adds no symbol column. -/
theorem preprocess_row_elimination (f : Frame) (hwf : f.WF)
    (hd : f.dates.Nodup) :
    (preprocess f).cols = f.cols ∧
    ((preprocess f).dates).Sublist f.dates ∧
    ∀ i, i < f.dates.length →
      (f.dates.getD i 0 ∈ (preprocess f).dates ↔
        rowAllMissing (f.ffill.rows.getD i []) = false) := by
  have hrl : f.ffill.rows.length = f.dates.length := by
    simpa [Frame.ffill, ffillRows_length] using hwf.1
  exact dropnaAll_spec f.ffill hrl hd

/-- Claim C6, witness: the all-missing first row of `allMissingStart` is
dropped and the resolved second row kept, with the columns unchanged. -/
theorem preprocess_row_elimination_witness :
    (preprocess allMissingStart).cols = allMissingStart.cols ∧
    (allMissingStart.dates.getD 0 0 ∈ (preprocess allMissingStart).dates ↔
      rowAllMissing (allMissingStart.ffill.rows.getD 0 []) = false) ∧
    (allMissingStart.dates.getD 1 0 ∈ (preprocess allMissingStart).dates ↔
      rowAllMissing (allMissingStart.ffill.rows.getD 1 []) = false) :=
  ⟨(preprocess_row_elimination allMissingStart (by decide) (by decide)).1,
   (preprocess_row_elimination allMissingStart (by decide) (by decide)).2.2 0
     (by decide),
   (preprocess_row_elimination allMissingStart (by decide) (by decide)).2.2 1
     (by decide)⟩

/-- Claim C10: the returned table's columns are exactly `valid_tickers`, in
order; a requested symbol is valid precisely when its fetch neither raised
nor came back empty; each requested symbol is fetched exactly once (no
retry). -/
theorem download_data_columns (fetch : Fetcher) (ts : List String) :
    (download_data fetch ts).1.cols = (download_data fetch ts).2.1 ∧
    (∀ t, t ∈ (download_data fetch ts).2.1 ↔
      t ∈ ts ∧ fetchOk (fetch t) = true) ∧
    fetchCalls fetch ts = ts := by
  refine ⟨?_, ?_, downloadLoop_fetched fetch ts⟩
  · rw [download_data_cols, download_data_valid]
  · intro t
    rw [download_data_valid, downloadLoop_valid]
    exact List.mem_filter

/-! ### Claim theorems about normalize -/

/-- Claim C7: per symbol the normalized index is the cumulative product
`idx_t = idx_(t-1) * (1 + r_t)` with `r_t = p_t/p_(t-1) - 1` across
consecutive present prices, anchored at 1 on the first retained date for
every symbol present there; the example prices `[100, 110, 99]` normalize
to `[1, 11/10, 99/100]` exactly. -/
theorem normalize_anchor (f : Frame) (hwf : f.WF) (i j : ℕ)
    (hi : i < f.rows.length) (hj : j < f.cols.length) :
    ((f.entry 0 j).isSome = true → (normalize f).entry 0 j = some 1) ∧
    (∀ a b : ℚ, f.entry i j = some a → i + 1 < f.rows.length →
      f.entry (i + 1) j = some b →
      (normalize f).entry (i + 1) j =
        Option.map (fun x => x * (1 + (b / a - 1))) ((normalize f).entry i j)) ∧
    normalize priceExample =
      ⟨[0, 1, 2], ["A"], [[some 1], [some (11 / 10)], [some (99 / 100)]]⟩ := by
  refine ⟨fun _ =>
    normalize_entry_zero f hwf j (Nat.lt_of_le_of_lt (Nat.zero_le i) hi) hj,
    ?_, ?_⟩
  · intro a b ha hi1 hb
    have hfa := ffill_entry_of_present f hwf i j hi hj a ha
    have hfb := ffill_entry_of_present f hwf (i + 1) j hi1 hj b hb
    have hpct2 : (f.pctChange.rows.getD (i + 1) []).getD j none =
        some (b / a - 1) := by
      rw [pct_entry_succ f hwf i j hi1 hj, hfa, hfb]
    rw [normalize_entry_succ f hwf i j hi1 hj, hpct2]
    simp only [Option.getD_some]
  · simp [normalize, Frame.pctChange, Frame.fillna0, Frame.addOne,
      Frame.cumprod, priceExample, pctChangeRows, ffillRow, pctRow,
      cumprodRows, cumprodCell]
    norm_num

/-- Claim C7, witness at the example prices `[100, 110, 99]`. -/
theorem normalize_anchor_witness :
    ((priceExample.entry 0 0).isSome = true →
      (normalize priceExample).entry 0 0 = some 1) ∧
    normalize priceExample =
      ⟨[0, 1, 2], ["A"], [[some 1], [some (11 / 10)], [some (99 / 100)]]⟩ :=
  ⟨(normalize_anchor priceExample (by decide) 0 0 (by decide) (by decide)).1,
   (normalize_anchor priceExample (by decide) 0 0 (by decide) (by decide)).2.2⟩

/-- Claim C1, amended: `normalize` never leaves a cell missing. A cell
missing for a symbol in its input — after preprocessing, a leading gap —
is treated as a zero return: the output is `1` on the first date and
repeats the previous date's index on later dates (when the forward-filled
price is not the degenerate `0`), instead of staying missing. -/
theorem missing_becomes_zero_return (f : Frame) (hwf : f.WF) (i j : ℕ)
    (hi : i < f.rows.length) (hj : j < f.cols.length) :
    ((normalize f).entry i j).isSome = true ∧
    (f.entry 0 j = none → (normalize f).entry 0 j = some 1) ∧
    (i + 1 < f.rows.length → f.entry (i + 1) j = none →
      f.ffill.entry (i + 1) j ≠ some 0 →
      (normalize f).entry (i + 1) j = (normalize f).entry i j) := by
  refine ⟨normalize_entry_isSome f hwf i j hi hj,
    fun _ =>
      normalize_entry_zero f hwf j (Nat.lt_of_le_of_lt (Nat.zero_le i) hi) hj,
    ?_⟩
  intro hi1 hn h0
  have hcarry := ffill_entry_carry f hwf i j hi1 hj hn
  cases hm : f.ffill.entry i j with
  | none =>
    have hpct2 : (f.pctChange.rows.getD (i + 1) []).getD j none = none := by
      rw [pct_entry_succ f hwf i j hi1 hj, hcarry, hm]
    rw [normalize_entry_succ f hwf i j hi1 hj, hpct2]
    simp only [Option.getD_none, add_zero, mul_one]
    cases (normalize f).entry i j <;> rfl
  | some a =>
    have ha : a ≠ 0 := fun h => h0 (by rw [hcarry, hm, h])
    have hpct2 : (f.pctChange.rows.getD (i + 1) []).getD j none =
        some (a / a - 1) := by
      rw [pct_entry_succ f hwf i j hi1 hj, hcarry, hm]
    rw [normalize_entry_succ f hwf i j hi1 hj, hpct2]
    have hone : (1 : ℚ) + (a / a - 1) = 1 := by
      rw [div_self ha]; ring
    simp only [Option.getD_some, hone, mul_one]
    cases (normalize f).entry i j <;> rfl

/-- Claim C1, counterexample: symbol B is missing at the first date of
`leadingGap`, a frame that `preprocess` returns unchanged, yet its
normalized value there is `some 1` — the missing cell is replaced by a
zero-return index, not propagated as missing. -/
theorem missing_becomes_zero_return_cex :
    preprocess leadingGap = leadingGap ∧
    leadingGap.entry 0 1 = none ∧
    (normalize leadingGap).entry 0 1 = some 1 := by
  refine ⟨by decide, by decide, ?_⟩
  simp [normalize, Frame.pctChange, Frame.fillna0, Frame.addOne, Frame.cumprod,
    leadingGap, pctChangeRows, ffillRow, pctRow, cumprodRows, cumprodCell,
    Frame.entry]

/-- Claim C1, witness at the leading missing cell of `leadingGap`. -/
theorem missing_becomes_zero_return_witness :
    ((normalize leadingGap).entry 0 1).isSome = true ∧
    (leadingGap.entry 0 1 = none → (normalize leadingGap).entry 0 1 = some 1) :=
  ⟨(missing_becomes_zero_return leadingGap (by decide) 0 1 (by decide)
      (by decide)).1,
   (missing_becomes_zero_return leadingGap (by decide) 0 1 (by decide)
      (by decide)).2.1⟩

end MarketDashboard
